import Mathlib

/-!
Verification of the preprocessing-strategy evaluation engine
(`debug_model.py`) against its natural-language specification.

Modelling conventions
=====================
* IEEE floating-point values are idealized as rationals (`ℚ`).  Every
  comparison the code performs (`< 0.01`, `< 2.0`, `>= 5.0`, `spread >
  best_spread`, sort comparisons) is far coarser than float error on the
  magnitudes involved, so the idealization is faithful for the claims
  settled here.
* `np.exp` is kept abstract: the whole evaluation pipeline is
  parametrized by a function `E : ℚ → ℚ`.  No claim below depends on the
  values of `exp`, only on how the code routes data around it.
* The model's `infer` call (which can raise) is modelled as a function
  `Nat → Option (List ℚ)` giving, per candidate position, either the raw
  output vector or `none` for a raised exception (the `try/except` in
  the evaluation loop).
* Python's `list.sort` is stable; `np.argsort` is modelled as a stable
  ascending sort of indices (numpy's `kind='stable'`; the default
  introsort coincides with it on the small tied blocks exercised here:
  for short runs it uses insertion sort, which preserves the order of
  equal elements).  Both are embedded with the same insertion-sort
  combinator `sortBy`, where the boolean `keep b a` decides whether an
  already-placed element `b` stays in front of a newly inserted `a`.
  Inserting the elements in their original order makes the combinator a
  stable sort.
-/

namespace PigWeigh

/-- Stable insertion of `a` into `l`: every already-placed `b` with
`keep b a = true` stays in front of `a`; `a` lands before the first
element that does not keep its place. -/
def insBy {α : Type} (keep : α → α → Bool) (a : α) : List α → List α
  | [] => [a]
  | b :: bs => if keep b a then b :: insBy keep a bs else a :: b :: bs

/-- Insertion sort driven by `keep`; elements are inserted in list
order, so with `keep b a = (key b ≤ key a)` this is a stable sort. -/
def sortBy {α : Type} (keep : α → α → Bool) (l : List α) : List α :=
  l.foldl (fun acc a => insBy keep a acc) []

/-- `np.sum` over a vector. -/
def sumL (xs : List ℚ) : ℚ := xs.sum

/-- `np.max` over a vector (`0` on the empty vector, which numpy would
reject; no claim depends on the empty case). -/
def maxL : List ℚ → ℚ
  | [] => 0
  | x :: xs => xs.foldl max x

/-- `np.mean`: sum divided by length. -/
def meanL (xs : List ℚ) : ℚ := sumL xs / (xs.length : ℚ)

/-- `softmax` from `debug_model.py`:
`e = np.exp(logits - logits.max()); return e / e.sum()`. -/
def softmax (E : ℚ → ℚ) (logits : List ℚ) : List ℚ :=
  let e := logits.map fun x => E (x - maxL logits)
  e.map fun v => v / sumL e

/-- `already_prob = abs(raw.sum() - 1.0) < 0.01` (line 266). -/
def alreadyProb (raw : List ℚ) : Bool := decide (|sumL raw - 1| < 1 / 100)

/-- `probs = raw if already_prob else softmax(raw)` (line 267). -/
def probsOf (E : ℚ → ℚ) (raw : List ℚ) : List ℚ :=
  if alreadyProb raw then raw else softmax E raw

/-- `np.argmax`: first index attaining the maximum (`0` on `[]`). -/
def argmaxL : List ℚ → Nat
  | [] => 0
  | [_] => 0
  | x :: xs => if x < maxL xs then argmaxL xs + 1 else 0

/-- `labels[i] if i < len(labels) else f"idx_{i}"` (lines 271 and 296). -/
def resolveLabel (labels : List String) (i : Nat) : String :=
  if i < labels.length then labels.getD i "" else "idx_" ++ toString i

/-- Keep-relation of the stable ascending index sort: an already-placed
index `j` stays before a later-inserted `i` iff `xs[j] ≤ xs[i]`. -/
def keepAsc (xs : List ℚ) (j i : Nat) : Bool := decide (xs.getD j 0 ≤ xs.getD i 0)

/-- `np.argsort(xs)`: indices of `xs` stably sorted by ascending value. -/
def argsortL (xs : List ℚ) : List Nat := sortBy (keepAsc xs) (List.range xs.length)

/-- `top3 = np.argsort(probs)[-3:][::-1]` (line 275): the last three
entries of the ascending argsort, reversed. -/
def top3L (xs : List ℚ) : List Nat := ((argsortL xs).drop (xs.length - 3)).reverse

/-- Per-candidate evaluation record: the tuple
`(spread, name, top_lbl, top_conf, raw, probs, top3)` appended to
`results` (line 277), together with `idx`, the candidate's position in
the generated strategy list (its generation order, which the Python
list keeps implicitly). -/
structure Result where
  idx : Nat
  name : String
  spread : ℚ
  topLbl : String
  topConf : ℚ
  raw : List ℚ
  probs : List ℚ
  top3 : List Nat
deriving DecidableEq

/-- Lines 266-277: evaluation of one successfully-inferred candidate. -/
def evalCandidate (E : ℚ → ℚ) (labels : List String) (i : Nat) (name : String)
    (raw : List ℚ) : Result :=
  let probs := probsOf E raw
  let ti := argmaxL probs
  { idx := i
    name := name
    spread := maxL raw - meanL raw
    topLbl := resolveLabel labels ti
    topConf := probs.getD ti 0 * 100
    raw := raw
    probs := probs
    top3 := top3L probs }

/-- Probe used to state claim C3: the same evaluation with the
`already_prob` detection outcome forced to `b` instead of computed,
showing the detection never feeds into the decisiveness score. -/
def evalCandidateDetect (E : ℚ → ℚ) (labels : List String) (b : Bool) (i : Nat)
    (name : String) (raw : List ℚ) : Result :=
  let probs := if b then raw else softmax E raw
  let ti := argmaxL probs
  { idx := i
    name := name
    spread := maxL raw - meanL raw
    topLbl := resolveLabel labels ti
    topConf := probs.getD ti 0 * 100
    raw := raw
    probs := probs
    top3 := top3L probs }

/-- The evaluation loop (lines 257-277) from candidate position `k` on:
a failed inference (`none`) is skipped, a successful one contributes a
fully-populated `Result`. -/
def evalFrom (E : ℚ → ℚ) (labels : List String) (infer : Nat → Option (List ℚ)) :
    Nat → List String → List Result
  | _, [] => []
  | k, n :: ns =>
    match infer k with
    | none => evalFrom E labels infer (k + 1) ns
    | some raw => evalCandidate E labels k n raw :: evalFrom E labels infer (k + 1) ns

/-- The `results` list after the whole evaluation loop. -/
def evalResults (E : ℚ → ℚ) (labels : List String) (infer : Nat → Option (List ℚ))
    (names : List String) : List Result :=
  evalFrom E labels infer 0 names

/-- Keep-relation of the ranking sort
(`results.sort(key=lambda r: r[0], reverse=True)`, line 286): Python's
sort is stable, so an already-placed result `b` stays in front of a
later-generated `a` iff `a`'s score does not exceed `b`'s. -/
def keepRank (b a : Result) : Bool := decide (a.spread ≤ b.spread)

/-- The ranked result list of line 286. -/
def rankResults (rs : List Result) : List Result := sortBy keepRank rs

/-- The running-best accumulator `best_spread / best_name / best_label /
best_conf` of lines 251-254. -/
structure Best where
  spread : ℚ
  name : String
  label : String
  conf : ℚ
deriving DecidableEq

/-- One step of the running maximum (lines 279-283): update only on a
strictly greater spread. -/
def stepBest (b : Best) (r : Result) : Best :=
  if r.spread > b.spread then
    { spread := r.spread, name := r.name, label := r.topLbl, conf := r.topConf }
  else b

/-- The running maximum over the evaluation loop, started at the
sentinel `best_spread = -999.0`, `best_name = ""` …. -/
def bestOf (rs : List Result) : Best :=
  rs.foldl stepBest { spread := -999, name := "", label := "", conf := 0 }

/-- Proof-side helper: the first result attaining the maximal spread
(ties keep the earlier element). -/
def firstMax : List Result → Option Result
  | [] => none
  | r :: rs =>
    match firstMax rs with
    | none => some r
    | some m => some (if r.spread < m.spread then m else r)

/-- Packaging of a result's reported best-fields. -/
def toBest (r : Result) : Best :=
  { spread := r.spread, name := r.name, label := r.topLbl, conf := r.topConf }

/-- The recommendation classification of lines 306-317. -/
inductive Classification where
  | unreliable
  | mediocre
  | acceptable
deriving DecidableEq

/-- `if best_spread < 2.0 … elif best_spread >= 5.0 … else …`. -/
def classify (s : ℚ) : Classification :=
  if s < 2 then Classification.unreliable
  else if 5 ≤ s then Classification.acceptable
  else Classification.mediocre

/-- The run's final report (ranked list, lines 286-297, plus the
RECOMMENDATION section, lines 299-317).  The recommendation fields are
unconditionally present: the code prints them whatever happened in the
loop; there is no branch on `results` being empty. -/
structure Report where
  ranked : List Result
  bestName : String
  bestLabel : String
  bestConf : ℚ
  bestSpread : ℚ
  classification : Classification
deriving DecidableEq

/-- The whole run after image loading: evaluate all candidates, rank,
and fill the recommendation section. -/
def runReport (E : ℚ → ℚ) (labels : List String) (infer : Nat → Option (List ℚ))
    (names : List String) : Report :=
  let rs := evalResults E labels infer names
  let b := bestOf rs
  { ranked := rankResults rs
    bestName := b.name
    bestLabel := b.label
    bestConf := b.conf
    bestSpread := b.spread
    classification := classify b.spread }

/-- Rendering of claim C2's wording (spec §4.5): indices sorted
descending by probability, ties broken by the LOWER index first; the
claimed top-3 is the first three entries of that order. -/
def keepDescLow (xs : List ℚ) (j i : Nat) : Bool :=
  decide (xs.getD i 0 < xs.getD j 0 ∨ (xs.getD j 0 = xs.getD i 0 ∧ j < i))

/-- The top-3 as claim C2 states it. -/
def top3Spec (xs : List ℚ) : List Nat :=
  (sortBy (keepDescLow xs) (List.range xs.length)).take 3

/-- Amended tie-break: descending by probability, ties broken by the
HIGHER index first (what `argsort[-3:][::-1]` actually produces). -/
def keepDescHigh (xs : List ℚ) (j i : Nat) : Bool :=
  decide (xs.getD i 0 < xs.getD j 0 ∨ (xs.getD j 0 = xs.getD i 0 ∧ i < j))

/-- Indices sorted descending by value, ties broken by higher index. -/
def argsortDescHigh (xs : List ℚ) : List Nat :=
  sortBy (keepDescHigh xs) (List.range xs.length)

/-- Truncation toward zero, the C conversion applied by
`astype` when narrowing a float to an integer type. -/
def ratTrunc (x : ℚ) : Int := if 0 ≤ x then ⌊x⌋ else ⌈x⌉

/-- `astype(np.uint8)` on one float element: truncate toward zero, then
wrap modulo 2^8 (the unguarded C-style narrowing conversion numpy
performs; nothing in line 258 clips or validates the value). -/
def castU8 (x : ℚ) : Nat := ((ratTrunc x) % 256).toNat

/-- Spec-side alternative used to state claim C10's contrast: a
saturating (clamping) conversion to the uint8 range. -/
def clampU8 (x : ℚ) : Nat := (max 0 (min 255 (ratTrunc x))).toNat

/-- The `÷127.5−1` normalization of line 237 on one pixel value. -/
def symUnit (x : ℚ) : ℚ := x / 127.5 - 1

/-- The ImageNet mean-std normalization of line 239 on one red-channel
pixel value (`mean = 123.68`, `std = 58.393`). -/
def imagenetNormR (x : ℚ) : ℚ := (x - 123.68) / 58.393

/-- Line 258 for a uint8-input model: the normalized float array is
elementwise cast to the declared input element type, with no guard. -/
def prepareU8 (norm : ℚ → ℚ) (pixels : List ℚ) : List Nat :=
  pixels.map fun p => castU8 (norm p)

/-- Concrete all-failures inference used by witnesses. -/
def inferFail : Nat → Option (List ℚ) := fun _ => none

/-- Concrete inference used by witnesses: candidate 0 fails, candidate 1
returns `[1, 2]`. -/
def inferW : Nat → Option (List ℚ) := fun i => if i = 1 then some [1, 2] else none

/-- A 95-class probability vector used by claim C8's witness. -/
def probs95 : List ℚ := List.replicate 95 (1 / 95)

end PigWeigh

namespace PigWeigh

theorem mem_insBy {α : Type} (keep : α → α → Bool) (a c : α) :
    ∀ l : List α, (c ∈ insBy keep a l ↔ c = a ∨ c ∈ l) := by
  intro l
  induction l with
  | nil => simp [insBy]
  | cons b bs ih =>
    by_cases hk : keep b a
    · simp only [insBy, hk, if_pos, List.mem_cons, ih]
      tauto
    · simp only [insBy, hk, Bool.false_eq_true, if_neg, not_false_iff, List.mem_cons]

theorem perm_insBy {α : Type} (keep : α → α → Bool) (a : α) :
    ∀ l : List α, (insBy keep a l).Perm (a :: l) := by
  intro l
  induction l with
  | nil => simp [insBy]
  | cons b bs ih =>
    by_cases hk : keep b a
    · simp only [insBy, hk, if_pos]
      exact (ih.cons b).trans (List.Perm.swap a b bs)
    · simp [insBy, hk]

theorem perm_foldl_insBy {α : Type} (keep : α → α → Bool) :
    ∀ (l acc : List α), (l.foldl (fun acc a => insBy keep a acc) acc).Perm (l ++ acc) := by
  intro l
  induction l with
  | nil => intro acc; simp
  | cons a l ih =>
    intro acc
    have h1 := ih (insBy keep a acc)
    have h2 : (l ++ insBy keep a acc).Perm (l ++ a :: acc) :=
      (perm_insBy keep a acc).append_left l
    have h3 : (l ++ a :: acc).Perm (a :: (l ++ acc)) := List.perm_middle
    simpa using (h1.trans h2).trans h3

theorem perm_sortBy {α : Type} (keep : α → α → Bool) (l : List α) :
    (sortBy keep l).Perm l := by
  have h := perm_foldl_insBy keep l []
  simpa [sortBy] using h

theorem pairwise_insBy {α : Type} {keep : α → α → Bool} {R : α → α → Prop}
    (htrans : ∀ a b c, R a b → R b c → R a c) (a : α) :
    ∀ l : List α, l.Pairwise R →
      (∀ b ∈ l, keep b a = true → R b a) →
      (∀ b ∈ l, keep b a = false → R a b) →
      (insBy keep a l).Pairwise R := by
  intro l
  induction l with
  | nil => intro _ _ _; simp [insBy]
  | cons b bs ih =>
    intro hp ht hf
    by_cases hk : keep b a
    · simp only [insBy, hk, if_pos]
      refine List.Pairwise.cons ?_ ?_
      · intro c hc
        rcases (mem_insBy keep a c bs).mp hc with rfl | hc
        · exact ht b (List.mem_cons_self b bs) hk
        · exact (List.pairwise_cons.mp hp).1 c hc
      · exact ih (List.pairwise_cons.mp hp).2
          (fun x hx => ht x (List.mem_cons_of_mem b hx))
          (fun x hx => hf x (List.mem_cons_of_mem b hx))
    · have hk' : keep b a = false := by simpa using hk
      simp only [insBy, hk', Bool.false_eq_true, if_neg, not_false_iff]
      refine List.Pairwise.cons ?_ hp
      intro c hc
      rcases List.mem_cons.mp hc with rfl | hc
      · exact hf c (List.mem_cons_self c bs) hk'
      · exact htrans a b c (hf b (List.mem_cons_self b bs) hk')
          ((List.pairwise_cons.mp hp).1 c hc)

theorem pairwise_foldl_insBy {α : Type} {keep : α → α → Bool} {R Q : α → α → Prop}
    (htrans : ∀ a b c, R a b → R b c → R a c)
    (ht : ∀ b a, Q b a → keep b a = true → R b a)
    (hf : ∀ b a, Q b a → keep b a = false → R a b) :
    ∀ (l acc : List α), l.Pairwise Q → acc.Pairwise R →
      (∀ b ∈ acc, ∀ a ∈ l, Q b a) →
      (l.foldl (fun acc a => insBy keep a acc) acc).Pairwise R := by
  intro l
  induction l with
  | nil => intro acc _ hacc _; simpa using hacc
  | cons a l ih =>
    intro acc hl hacc hq
    simp only [List.foldl_cons]
    refine ih (insBy keep a acc) (List.pairwise_cons.mp hl).2 ?_ ?_
    · refine pairwise_insBy htrans a acc hacc ?_ ?_
      · exact fun b hb hk => ht b a (hq b hb a (List.mem_cons_self a l)) hk
      · exact fun b hb hk => hf b a (hq b hb a (List.mem_cons_self a l)) hk
    · intro b hb c hc
      rcases (mem_insBy keep a b acc).mp hb with rfl | hb
      · exact (List.pairwise_cons.mp hl).1 c hc
      · exact hq b hb c (List.mem_cons_of_mem a hc)

theorem pairwise_sortBy {α : Type} {keep : α → α → Bool} {R Q : α → α → Prop}
    (htrans : ∀ a b c, R a b → R b c → R a c)
    (ht : ∀ b a, Q b a → keep b a = true → R b a)
    (hf : ∀ b a, Q b a → keep b a = false → R a b)
    (l : List α) (hl : l.Pairwise Q) : (sortBy keep l).Pairwise R := by
  exact pairwise_foldl_insBy htrans ht hf l [] hl (by simp) (by simp)

end PigWeigh

namespace PigWeigh

theorem le_foldl_max (xs : List ℚ) : ∀ a : ℚ, a ≤ xs.foldl max a ∧ ∀ y ∈ xs, y ≤ xs.foldl max a := by
  induction xs with
  | nil => intro a; simp
  | cons b bs ih =>
    intro a
    refine ⟨?_, ?_⟩
    · exact le_trans (le_max_left a b) (ih (max a b)).1
    · intro y hy
      rcases List.mem_cons.mp hy with rfl | hy
      · exact le_trans (le_max_right a y) (ih (max a y)).1
      · exact (ih (max a b)).2 y hy

theorem mem_le_maxL (xs : List ℚ) : ∀ y ∈ xs, y ≤ maxL xs := by
  cases xs with
  | nil => intro y hy; simp at hy
  | cons x l =>
    intro y hy
    rcases List.mem_cons.mp hy with rfl | hy
    · exact (le_foldl_max l y).1
    · exact (le_foldl_max l x).2 y hy

theorem meanL_le_maxL (xs : List ℚ) : meanL xs ≤ maxL xs := by
  cases xs with
  | nil => simp [meanL, maxL, sumL]
  | cons x l =>
    have hlen : (0 : ℚ) < ((x :: l).length : ℚ) := by
      exact_mod_cast Nat.succ_pos l.length
    have hsum : sumL (x :: l) ≤ ((x :: l).length : ℚ) * maxL (x :: l) := by
      have h := List.sum_le_card_nsmul (x :: l) (maxL (x :: l)) (mem_le_maxL (x :: l))
      simpa [sumL, nsmul_eq_mul] using h
    rw [meanL, div_le_iff₀ hlen]
    linarith [hsum]

theorem spread_nonneg (xs : List ℚ) : 0 ≤ maxL xs - meanL xs :=
  sub_nonneg.mpr (meanL_le_maxL xs)

theorem argmaxL_lt : ∀ xs : List ℚ, xs ≠ [] → argmaxL xs < xs.length := by
  intro xs
  induction xs with
  | nil => intro h; exact absurd rfl h
  | cons x l ih =>
    intro _
    cases l with
    | nil => simp [argmaxL]
    | cons y t =>
      have hlt := ih (List.cons_ne_nil y t)
      simp only [List.length_cons] at hlt ⊢
      by_cases h : x < maxL (y :: t)
      · simp only [argmaxL, h, if_pos]
        omega
      · simp only [argmaxL, h, if_neg, not_false_iff]
        omega

end PigWeigh

namespace PigWeigh

theorem mem_evalFrom (E : ℚ → ℚ) (labels : List String) (infer : Nat → Option (List ℚ)) :
    ∀ (ns : List String) (k : Nat) (r : Result),
      r ∈ evalFrom E labels infer k ns ↔
        ∃ j, j < ns.length ∧ ∃ raw, infer (k + j) = some raw ∧
          r = evalCandidate E labels (k + j) (ns.getD j "") raw := by
  intro ns
  induction ns with
  | nil => intro k r; simp [evalFrom]
  | cons n ns ih =>
    intro k r
    cases hik : infer k with
    | none =>
      simp only [evalFrom, hik]
      rw [ih (k + 1) r]
      constructor
      · rintro ⟨j, hj, raw, hr, he⟩
        refine ⟨j + 1, by simpa using Nat.succ_lt_succ hj, raw, ?_, ?_⟩
        · have : k + 1 + j = k + (j + 1) := by omega
          rw [← this]; exact hr
        · have : k + 1 + j = k + (j + 1) := by omega
          rw [← this]; simpa using he
      · rintro ⟨j, hj, raw, hr, he⟩
        cases j with
        | zero =>
          exfalso
          rw [Nat.add_zero] at hr
          rw [hik] at hr
          exact Option.noConfusion hr
        | succ j =>
          refine ⟨j, by simpa using Nat.lt_of_succ_lt_succ hj, raw, ?_, ?_⟩
          · have : k + (j + 1) = k + 1 + j := by omega
            rw [← this]; exact hr
          · have : k + (j + 1) = k + 1 + j := by omega
            rw [← this]; simpa using he
    | some raw0 =>
      simp only [evalFrom, hik, List.mem_cons]
      rw [ih (k + 1) r]
      constructor
      · rintro (rfl | ⟨j, hj, raw, hr, he⟩)
        · exact ⟨0, by simp, raw0, by simpa using hik, by simp⟩
        · refine ⟨j + 1, by simpa using Nat.succ_lt_succ hj, raw, ?_, ?_⟩
          · have : k + 1 + j = k + (j + 1) := by omega
            rw [← this]; exact hr
          · have : k + 1 + j = k + (j + 1) := by omega
            rw [← this]; simpa using he
      · rintro ⟨j, hj, raw, hr, he⟩
        cases j with
        | zero =>
          left
          rw [Nat.add_zero] at hr he
          rw [hik] at hr
          cases hr
          simpa using he
        | succ j =>
          right
          refine ⟨j, by simpa using Nat.lt_of_succ_lt_succ hj, raw, ?_, ?_⟩
          · have : k + (j + 1) = k + 1 + j := by omega
            rw [← this]; exact hr
          · have : k + (j + 1) = k + 1 + j := by omega
            rw [← this]; simpa using he

theorem evalFrom_idx (E : ℚ → ℚ) (labels : List String) (infer : Nat → Option (List ℚ)) :
    ∀ (ns : List String) (k : Nat),
      (∀ r ∈ evalFrom E labels infer k ns, k ≤ r.idx) ∧
      (evalFrom E labels infer k ns).Pairwise (fun a b => a.idx < b.idx) := by
  intro ns
  induction ns with
  | nil => intro k; simp [evalFrom]
  | cons n ns ih =>
    intro k
    cases hik : infer k with
    | none =>
      simp only [evalFrom, hik]
      refine ⟨fun r hr => ?_, (ih (k + 1)).2⟩
      exact le_trans (Nat.le_succ k) ((ih (k + 1)).1 r hr)
    | some raw =>
      simp only [evalFrom, hik]
      constructor
      · intro r hr
        rcases List.mem_cons.mp hr with rfl | hr
        · exact le_refl _
        · exact le_trans (Nat.le_succ k) ((ih (k + 1)).1 r hr)
      · refine List.Pairwise.cons ?_ (ih (k + 1)).2
        intro r hr
        have := (ih (k + 1)).1 r hr
        simp only [evalCandidate]
        omega

theorem evalResults_idx_pairwise (E : ℚ → ℚ) (labels : List String)
    (infer : Nat → Option (List ℚ)) (names : List String) :
    (evalResults E labels infer names).Pairwise (fun a b => a.idx < b.idx) :=
  (evalFrom_idx E labels infer names 0).2

theorem evalFrom_all_none (E : ℚ → ℚ) (labels : List String)
    (infer : Nat → Option (List ℚ)) (h : ∀ i, infer i = none) :
    ∀ (ns : List String) (k : Nat), evalFrom E labels infer k ns = [] := by
  intro ns
  induction ns with
  | nil => intro k; rfl
  | cons n ns ih =>
    intro k
    simp only [evalFrom, h k]
    exact ih (k + 1)

end PigWeigh

namespace PigWeigh

theorem argsort_perm_range (xs : List ℚ) :
    (argsortL xs).Perm (List.range xs.length) :=
  perm_sortBy (keepAsc xs) (List.range xs.length)

theorem argsort_length (xs : List ℚ) : (argsortL xs).length = xs.length := by
  have h := (argsort_perm_range xs).length_eq
  simpa using h

theorem mem_argsort_lt (xs : List ℚ) (j : Nat) (h : j ∈ argsortL xs) : j < xs.length := by
  have := (argsort_perm_range xs).mem_iff.mp h
  simpa using this

theorem lex_asc_trans (xs : List ℚ) :
    ∀ a b c : Nat,
      (xs.getD a 0 < xs.getD b 0 ∨ (xs.getD a 0 = xs.getD b 0 ∧ a ≤ b)) →
      (xs.getD b 0 < xs.getD c 0 ∨ (xs.getD b 0 = xs.getD c 0 ∧ b ≤ c)) →
      (xs.getD a 0 < xs.getD c 0 ∨ (xs.getD a 0 = xs.getD c 0 ∧ a ≤ c)) := by
  intro a b c h1 h2
  rcases h1 with h1 | ⟨h1, h1n⟩ <;> rcases h2 with h2 | ⟨h2, h2n⟩
  · exact Or.inl (lt_trans h1 h2)
  · exact Or.inl (h2 ▸ h1)
  · exact Or.inl (h1 ▸ h2)
  · exact Or.inr ⟨h1.trans h2, le_trans h1n h2n⟩

theorem argsort_pairwise (xs : List ℚ) :
    (argsortL xs).Pairwise
      (fun j i => xs.getD j 0 < xs.getD i 0 ∨ (xs.getD j 0 = xs.getD i 0 ∧ j ≤ i)) := by
  refine pairwise_sortBy (lex_asc_trans xs) ?_ ?_ (List.range xs.length)
    (List.pairwise_lt_range xs.length)
  · intro b a hq hk
    have hle : xs.getD b 0 ≤ xs.getD a 0 := by
      simpa [keepAsc] using hk
    rcases lt_or_eq_of_le hle with h | h
    · exact Or.inl h
    · exact Or.inr ⟨h, le_of_lt hq⟩
  · intro b a hq hk
    have hlt : ¬ xs.getD b 0 ≤ xs.getD a 0 := by
      simpa [keepAsc] using hk
    exact Or.inl (lt_of_not_le hlt)

theorem lex_desc_trans (xs : List ℚ) :
    ∀ a b c : Nat,
      (xs.getD b 0 < xs.getD a 0 ∨ (xs.getD b 0 = xs.getD a 0 ∧ b ≤ a)) →
      (xs.getD c 0 < xs.getD b 0 ∨ (xs.getD c 0 = xs.getD b 0 ∧ c ≤ b)) →
      (xs.getD c 0 < xs.getD a 0 ∨ (xs.getD c 0 = xs.getD a 0 ∧ c ≤ a)) := by
  intro a b c h1 h2
  rcases h1 with h1 | ⟨h1, h1n⟩ <;> rcases h2 with h2 | ⟨h2, h2n⟩
  · exact Or.inl (lt_trans h2 h1)
  · exact Or.inl (h2 ▸ h1)
  · exact Or.inl (h1 ▸ h2)
  · exact Or.inr ⟨h2.trans h1, le_trans h2n h1n⟩

theorem argsortDescHigh_perm_range (xs : List ℚ) :
    (argsortDescHigh xs).Perm (List.range xs.length) :=
  perm_sortBy (keepDescHigh xs) (List.range xs.length)

theorem argsortDescHigh_pairwise (xs : List ℚ) :
    (argsortDescHigh xs).Pairwise
      (fun a b => xs.getD b 0 < xs.getD a 0 ∨ (xs.getD b 0 = xs.getD a 0 ∧ b ≤ a)) := by
  refine pairwise_sortBy (fun a b c h1 h2 => lex_desc_trans xs a b c h1 h2) ?_ ?_
    (List.range xs.length) (List.pairwise_lt_range xs.length)
  · intro b a hq hk
    have h : xs.getD a 0 < xs.getD b 0 ∨ (xs.getD b 0 = xs.getD a 0 ∧ a < b) := by
      simpa [keepDescHigh] using hk
    rcases h with h | ⟨h, hn⟩
    · exact Or.inl h
    · exact Or.inr ⟨h.symm ▸ rfl, le_of_lt hn⟩
  · intro b a hq hk
    have h : ¬ (xs.getD a 0 < xs.getD b 0 ∨ (xs.getD b 0 = xs.getD a 0 ∧ a < b)) := by
      simpa [keepDescHigh] using hk
    push_neg at h
    rcases lt_or_eq_of_le h.1 with hlt | heq
    · exact Or.inl hlt
    · exact Or.inr ⟨heq, le_of_lt hq⟩

end PigWeigh

namespace PigWeigh

theorem argsort_reverse_eq_descHigh (xs : List ℚ) :
    (argsortL xs).reverse = argsortDescHigh xs := by
  have hanti : IsAntisymm Nat
      (fun a b => xs.getD b 0 < xs.getD a 0 ∨ (xs.getD b 0 = xs.getD a 0 ∧ b ≤ a)) := by
    refine ⟨?_⟩
    intro a b h1 h2
    rcases h1 with h1 | ⟨h1, h1n⟩ <;> rcases h2 with h2 | ⟨h2, h2n⟩ <;>
      first
        | omega
        | (exfalso; linarith)
  have hp : ((argsortL xs).reverse).Perm (argsortDescHigh xs) :=
    ((argsortL xs).reverse_perm.trans (argsort_perm_range xs)).trans
      (argsortDescHigh_perm_range xs).symm
  have hs1 : ((argsortL xs).reverse).Pairwise
      (fun a b => xs.getD b 0 < xs.getD a 0 ∨ (xs.getD b 0 = xs.getD a 0 ∧ b ≤ a)) :=
    List.pairwise_reverse.mpr (argsort_pairwise xs)
  have hs2 := argsortDescHigh_pairwise xs
  exact @List.eq_of_perm_of_sorted Nat
    (fun a b => xs.getD b 0 < xs.getD a 0 ∨ (xs.getD b 0 = xs.getD a 0 ∧ b ≤ a))
    hanti _ _ hp hs1 hs2

theorem top3_eq_take_descHigh (xs : List ℚ) :
    top3L xs = (argsortDescHigh xs).take 3 := by
  have hrev : ((argsortL xs).drop (xs.length - 3)).reverse =
      (argsortL xs).reverse.take ((argsortL xs).length - (xs.length - 3)) :=
    List.reverse_drop
  have hlen : (argsortL xs).length = xs.length := argsort_length xs
  rw [top3L, hrev, hlen, argsort_reverse_eq_descHigh]
  have hlen2 : (argsortDescHigh xs).length = xs.length := by
    have h := (argsortDescHigh_perm_range xs).length_eq
    simpa using h
  by_cases h3 : 3 ≤ xs.length
  · have : xs.length - (xs.length - 3) = 3 := by omega
    rw [this]
  · have hend : xs.length - (xs.length - 3) = xs.length := by omega
    rw [hend]
    rw [List.take_of_length_le (by omega : (argsortDescHigh xs).length ≤ xs.length),
      List.take_of_length_le (by omega : (argsortDescHigh xs).length ≤ 3)]

theorem top3_pairwise_descHigh (xs : List ℚ) :
    (top3L xs).Pairwise
      (fun a b => xs.getD b 0 < xs.getD a 0 ∨ (xs.getD b 0 = xs.getD a 0 ∧ b ≤ a)) := by
  rw [top3_eq_take_descHigh]
  exact (argsortDescHigh_pairwise xs).sublist (List.take_sublist 3 (argsortDescHigh xs))

theorem mem_top3_lt (xs : List ℚ) (j : Nat) (h : j ∈ top3L xs) : j < xs.length := by
  rw [top3L, List.mem_reverse] at h
  exact mem_argsort_lt xs j (List.mem_of_mem_drop h)

end PigWeigh

namespace PigWeigh

theorem rank_perm (rs : List Result) : (rankResults rs).Perm rs :=
  perm_sortBy keepRank rs

theorem rank_trans :
    ∀ a b c : Result,
      (b.spread < a.spread ∨ (a.spread = b.spread ∧ a.idx ≤ b.idx)) →
      (c.spread < b.spread ∨ (b.spread = c.spread ∧ b.idx ≤ c.idx)) →
      (c.spread < a.spread ∨ (a.spread = c.spread ∧ a.idx ≤ c.idx)) := by
  intro a b c h1 h2
  rcases h1 with h1 | ⟨h1, h1n⟩ <;> rcases h2 with h2 | ⟨h2, h2n⟩
  · exact Or.inl (lt_trans h2 h1)
  · exact Or.inl (h2 ▸ h1)
  · exact Or.inl (h1 ▸ h2)
  · exact Or.inr ⟨h1.trans h2, le_trans h1n h2n⟩

theorem rank_pairwise (rs : List Result)
    (hidx : rs.Pairwise (fun a b => a.idx < b.idx)) :
    (rankResults rs).Pairwise
      (fun a b => b.spread < a.spread ∨ (a.spread = b.spread ∧ a.idx ≤ b.idx)) := by
  refine pairwise_sortBy rank_trans ?_ ?_ rs hidx
  · intro b a hq hk
    have hle : a.spread ≤ b.spread := by simpa [keepRank] using hk
    rcases lt_or_eq_of_le hle with h | h
    · exact Or.inl h
    · exact Or.inr ⟨h.symm, le_of_lt hq⟩
  · intro b a hq hk
    have hlt : ¬ a.spread ≤ b.spread := by simpa [keepRank] using hk
    exact Or.inl (lt_of_not_le hlt)

theorem idx_inj :
    ∀ rs : List Result, rs.Pairwise (fun a b => a.idx < b.idx) →
      ∀ a ∈ rs, ∀ b ∈ rs, a.idx = b.idx → a = b := by
  intro rs
  induction rs with
  | nil => intro _ a ha; simp at ha
  | cons r t ih =>
    intro hp a ha b hb heq
    have hhead := (List.pairwise_cons.mp hp).1
    rcases List.mem_cons.mp ha with ha0 | ha1
    · rcases List.mem_cons.mp hb with hb0 | hb1
      · rw [ha0, hb0]
      · exfalso; rw [ha0] at heq; have := hhead b hb1; omega
    · rcases List.mem_cons.mp hb with hb0 | hb1
      · exfalso; rw [hb0] at heq; have := hhead a ha1; omega
      · exact ih (List.pairwise_cons.mp hp).2 a ha1 b hb1 heq

theorem firstMax_eq_none : ∀ rs : List Result, firstMax rs = none ↔ rs = [] := by
  intro rs
  cases rs with
  | nil => simp [firstMax]
  | cons r t =>
    simp only [firstMax]
    cases firstMax t <;> simp

theorem foldl_stepBest_eq :
    ∀ (rs : List Result) (b : Best),
      rs.foldl stepBest b =
        match firstMax rs with
        | none => b
        | some m => if b.spread < m.spread then toBest m else b := by
  intro rs
  induction rs with
  | nil => intro b; rfl
  | cons r t ih =>
    intro b
    simp only [List.foldl_cons, firstMax]
    rw [ih (stepBest b r)]
    cases hfm : firstMax t with
    | none =>
      simp only [stepBest, toBest, gt_iff_lt]
    | some m =>
      simp only [stepBest, toBest, gt_iff_lt]
      by_cases h1 : b.spread < r.spread <;> by_cases h2 : r.spread < m.spread <;>
        simp only [h1, h2, if_pos, if_neg, not_false_iff, reduceIte] <;>
        split_ifs <;> first | rfl | (exfalso; linarith)

theorem firstMax_spec :
    ∀ rs : List Result, rs.Pairwise (fun a b => a.idx < b.idx) →
      ∀ m, firstMax rs = some m →
        m ∈ rs ∧ (∀ r ∈ rs, r.spread ≤ m.spread) ∧
          (∀ r ∈ rs, r.spread = m.spread → m.idx ≤ r.idx) := by
  intro rs
  induction rs with
  | nil => intro _ m hm; exact absurd hm (by simp [firstMax])
  | cons r t ih =>
    intro hp m hm
    cases hfm : firstMax t with
    | none =>
      have ht : t = [] := (firstMax_eq_none t).mp hfm
      subst ht
      simp only [firstMax] at hm
      cases hm
      refine ⟨List.mem_cons_self _ _, ?_, ?_⟩
      · intro x hx
        rcases List.mem_cons.mp hx with rfl | hx
        · exact le_refl _
        · simp at hx
      · intro x hx _
        rcases List.mem_cons.mp hx with rfl | hx
        · exact le_refl _
        · simp at hx
    | some m' =>
      have hspec := ih (List.pairwise_cons.mp hp).2 m' hfm
      simp only [firstMax, hfm] at hm
      by_cases hlt : r.spread < m'.spread
      · rw [if_pos hlt] at hm
        cases hm
        refine ⟨List.mem_cons_of_mem r hspec.1, ?_, ?_⟩
        · intro x hx
          rcases List.mem_cons.mp hx with rfl | hx
          · exact le_of_lt hlt
          · exact hspec.2.1 x hx
        · intro x hx hxe
          rcases List.mem_cons.mp hx with rfl | hx
          · exact absurd hxe (by linarith)
          · exact hspec.2.2 x hx hxe
      · rw [if_neg hlt] at hm
        cases hm
        have hge : m'.spread ≤ r.spread := le_of_not_lt hlt
        refine ⟨List.mem_cons_self _ _, ?_, ?_⟩
        · intro x hx
          rcases List.mem_cons.mp hx with rfl | hx
          · exact le_refl _
          · exact le_trans (hspec.2.1 x hx) hge
        · intro x hx _
          rcases List.mem_cons.mp hx with rfl | hx
          · exact le_refl _
          · exact le_of_lt ((List.pairwise_cons.mp hp).1 x hx)

theorem bestOf_eq_rank_head (rs : List Result)
    (hidx : rs.Pairwise (fun a b => a.idx < b.idx))
    (hnn : ∀ r ∈ rs, 0 ≤ r.spread) (hne : rs ≠ []) :
    ∃ h, (rankResults rs).head? = some h ∧ bestOf rs = toBest h := by
  cases hfm : firstMax rs with
  | none => exact absurd ((firstMax_eq_none rs).mp hfm) hne
  | some m =>
    have hms := firstMax_spec rs hidx m hfm
    have hbest : bestOf rs = toBest m := by
      rw [bestOf, foldl_stepBest_eq rs _, hfm]
      have : (-999 : ℚ) < m.spread := by
        have := hnn m hms.1
        linarith
      simp only [this, if_pos]
    cases hrk : rankResults rs with
    | nil =>
      exfalso
      have := (rank_perm rs).length_eq
      rw [hrk] at this
      cases rs with
      | nil => exact hne rfl
      | cons a t => simp at this
    | cons h t =>
      refine ⟨h, by simp, ?_⟩
      have hpw := rank_pairwise rs hidx
      rw [hrk] at hpw
      have hhr : ∀ x ∈ t, x.spread < h.spread ∨ (h.spread = x.spread ∧ h.idx ≤ x.idx) :=
        (List.pairwise_cons.mp hpw).1
      have hmem : ∀ x ∈ rs, x = h ∨ x ∈ t := by
        intro x hx
        have : x ∈ rankResults rs := (rank_perm rs).mem_iff.mpr hx
        rw [hrk] at this
        exact List.mem_cons.mp this
      have hhin : h ∈ rs := by
        have : h ∈ rankResults rs := by rw [hrk]; exact List.mem_cons_self _ _
        exact (rank_perm rs).mem_iff.mp this
      have h1 : h.spread ≤ m.spread := hms.2.1 h hhin
      have h2 : m.spread ≤ h.spread := by
        rcases hmem m hms.1 with rfl | hm
        · exact le_refl _
        · rcases hhr m hm with hlt | ⟨heq, _⟩
          · exact le_of_lt hlt
          · exact le_of_eq heq.symm
      have hseq : m.spread = h.spread := le_antisymm h2 h1
      have hidx1 : m.idx ≤ h.idx := hms.2.2 h hhin hseq.symm
      have hidx2 : h.idx ≤ m.idx := by
        rcases hmem m hms.1 with rfl | hm
        · exact le_refl _
        · rcases hhr m hm with hlt | ⟨_, hle⟩
          · exact absurd hseq (by linarith)
          · exact hle
      have : m = h := idx_inj rs hidx m hms.1 h hhin (le_antisymm hidx1 hidx2)
      rw [hbest, this]

end PigWeigh

namespace PigWeigh

/-- Claim C3: for every successfully evaluated candidate, the
decisiveness score equals max(raw) − mean(raw) computed on the raw model
output vector, and the value is unchanged if the already-a-distribution
detection is forced either way: the detection never changes the scoring
input. -/
theorem c3_decisiveness_on_raw (E : ℚ → ℚ) (labels : List String) (i : Nat)
    (name : String) (raw : List ℚ) :
    (evalCandidate E labels i name raw).spread =
      maxL raw - sumL raw / (raw.length : ℚ) ∧
    ∀ b : Bool, (evalCandidateDetect E labels b i name raw).spread =
      (evalCandidate E labels i name raw).spread :=
  ⟨rfl, fun _ => rfl⟩

/-- Claim C4: for every successfully evaluated candidate, the derived
probability vector equals the raw output exactly when |sum(raw) − 1.0| <
0.01, and otherwise equals the numerically-stable softmax of the raw
output: subtract the maximum value before exponentiating, then normalize
by the sum of the exponentials. -/
theorem c4_probability_derivation (E : ℚ → ℚ) (labels : List String) (i : Nat)
    (name : String) (raw : List ℚ) :
    (|sumL raw - 1| < 1 / 100 → (evalCandidate E labels i name raw).probs = raw) ∧
    (¬ |sumL raw - 1| < 1 / 100 →
      (evalCandidate E labels i name raw).probs =
        raw.map fun x => E (x - maxL raw) / sumL (raw.map fun y => E (y - maxL raw))) := by
  constructor
  · intro h
    have hb : alreadyProb raw = true := by simpa [alreadyProb] using h
    show probsOf E raw = raw
    simp [probsOf, hb]
  · intro h
    have hb : alreadyProb raw = false := by simpa [alreadyProb] using h
    show probsOf E raw = _
    simp only [probsOf, hb, Bool.false_eq_true, if_neg, not_false_iff]
    simp [softmax, List.map_map, Function.comp]

/-- Witness for claim C4 at concrete inputs: `[1/2, 1/2]` sums to 1 and
is passed through; `[1, 2]` does not and goes through the stable
softmax (with the abstract exponential instantiated to `id`). -/
theorem c4_witness :
    (|sumL [(1 : ℚ)/2, 1/2] - 1| < 1 / 100 ∧
      (evalCandidate id [] 0 "a" [(1 : ℚ)/2, 1/2]).probs = [(1 : ℚ)/2, 1/2]) ∧
    (¬ |sumL [(1 : ℚ), 2] - 1| < 1 / 100 ∧
      (evalCandidate id [] 0 "b" [(1 : ℚ), 2]).probs = [(1 : ℚ), 0]) := by
  refine ⟨⟨by norm_num [sumL], ?_⟩, ⟨by norm_num [sumL], ?_⟩⟩
  · exact (c4_probability_derivation id [] 0 "a" [(1 : ℚ)/2, 1/2]).1 (by norm_num [sumL])
  · exact ((c4_probability_derivation id [] 0 "b" [(1 : ℚ), 2]).2
      (by norm_num [sumL])).trans (by norm_num [maxL, sumL])

/-- Claim C7: the classification of the best decisiveness score is a
total three-way partition at the fixed thresholds 2.0 and 5.0: strictly
below 2 is Unreliable, in [2, 5) is Mediocre, and 5 or above is
Acceptable; `classify` is a total function, so exactly one
classification is emitted for any score. -/
theorem c7_threshold_partition (s : ℚ) :
    (s < 2 → classify s = Classification.unreliable) ∧
    (2 ≤ s → s < 5 → classify s = Classification.mediocre) ∧
    (5 ≤ s → classify s = Classification.acceptable) := by
  refine ⟨fun h => ?_, fun h1 h2 => ?_, fun h => ?_⟩ <;>
    rw [classify] <;> split_ifs <;> first | rfl | linarith

/-- Witness for claim C7 at the concrete scores 1, 3 and 7, one in each
band of the partition. -/
theorem c7_witness :
    ((1 : ℚ) < 2 ∧ classify 1 = Classification.unreliable) ∧
    ((2 : ℚ) ≤ 3 ∧ (3 : ℚ) < 5 ∧ classify 3 = Classification.mediocre) ∧
    ((5 : ℚ) ≤ 7 ∧ classify 7 = Classification.acceptable) :=
  ⟨⟨by norm_num, (c7_threshold_partition 1).1 (by norm_num)⟩,
   ⟨by norm_num, by norm_num, (c7_threshold_partition 3).2.1 (by norm_num) (by norm_num)⟩,
   ⟨by norm_num, (c7_threshold_partition 7).2.2 (by norm_num)⟩⟩

end PigWeigh

namespace PigWeigh

/-- Claim C1 (counterexample): with a single candidate whose inference
fails, the code still fills and prints the RECOMMENDATION section: the
report presents the empty best-name with the sentinel score −999 and
classifies it Unreliable exactly like a genuine low-scoring run.  There
is no branch on an empty result list anywhere in lines 299-317, so no
distinct "no usable result" condition is reported, and an
empty/undefined recommendation IS silently presented — refuting the
claim as stated. -/
theorem c1_counterexample :
    (runReport id [] inferFail ["stretch | raw"]).ranked = [] ∧
    (runReport id [] inferFail ["stretch | raw"]).bestName = "" ∧
    (runReport id [] inferFail ["stretch | raw"]).bestSpread = -999 ∧
    (runReport id [] inferFail ["stretch | raw"]).classification =
      Classification.unreliable := by
  refine ⟨rfl, rfl, rfl, by decide⟩

/-- Claim C1 (amended): if every candidate's inference call fails, the
run does not crash and ranks nothing, but it does NOT report a distinct
"no usable result" condition: it still emits the recommendation section,
populated with the untouched sentinel values (empty variant name, empty
label, confidence 0, spread −999) and classified Unreliable by the
ordinary threshold branch. -/
theorem c1_all_fail_sentinel_report (E : ℚ → ℚ) (labels : List String)
    (infer : Nat → Option (List ℚ)) (names : List String)
    (h : ∀ i, infer i = none) :
    runReport E labels infer names =
      { ranked := [], bestName := "", bestLabel := "", bestConf := 0,
        bestSpread := -999, classification := Classification.unreliable } := by
  have he : evalResults E labels infer names = [] := by
    rw [evalResults]
    exact evalFrom_all_none E labels infer h names 0
  simp only [runReport, he]
  decide

/-- Witness for claim C1's amended theorem on a concrete all-failing
run. -/
theorem c1_witness :
    (∀ i : Nat, inferFail i = none) ∧
    runReport id [] inferFail ["a"] =
      { ranked := [], bestName := "", bestLabel := "", bestConf := 0,
        bestSpread := -999, classification := Classification.unreliable } :=
  ⟨fun _ => rfl, c1_all_fail_sentinel_report id [] inferFail ["a"] (fun _ => rfl)⟩

/-- Claim C2 (counterexample): the candidate with raw output
`[2/5, 2/5, 1/5]` (already a distribution, so probs = raw) has two tied
top probabilities at indices 0 and 1.  The code reports top-3
`[1, 0, 2]` — the tie is broken by the HIGHER index first — while the
claim's ordering (descending, ties by lower index first) is
`[0, 1, 2]`. -/
theorem c2_counterexample :
    (evalCandidate id [] 0 "stretch | raw" [(2 : ℚ)/5, 2/5, 1/5]).top3 = [1, 0, 2] ∧
    top3Spec ((evalCandidate id [] 0 "stretch | raw" [(2 : ℚ)/5, 2/5, 1/5]).probs) =
      [0, 1, 2] ∧
    (evalCandidate id [] 0 "stretch | raw" [(2 : ℚ)/5, 2/5, 1/5]).top3 ≠
      top3Spec ((evalCandidate id [] 0 "stretch | raw" [(2 : ℚ)/5, 2/5, 1/5]).probs) := by
  have hpro : probsOf id [(2 : ℚ)/5, 2/5, 1/5] = [(2 : ℚ)/5, 2/5, 1/5] := by
    norm_num [probsOf, alreadyProb, sumL]
  have h3 : (evalCandidate id [] 0 "stretch | raw" [(2 : ℚ)/5, 2/5, 1/5]).top3 = [1, 0, 2] := by
    show top3L (probsOf id [(2 : ℚ)/5, 2/5, 1/5]) = [1, 0, 2]
    rw [hpro]
    norm_num [top3L, argsortL, sortBy, keepAsc, insBy, List.range, List.range.loop]
  have hsp : top3Spec ((evalCandidate id [] 0 "stretch | raw" [(2 : ℚ)/5, 2/5, 1/5]).probs) =
      [0, 1, 2] := by
    show top3Spec (probsOf id [(2 : ℚ)/5, 2/5, 1/5]) = [0, 1, 2]
    rw [hpro]
    norm_num [top3Spec, sortBy, keepDescLow, insBy, List.range, List.range.loop]
  exact ⟨h3, hsp, by rw [h3, hsp]; decide⟩

/-- Claim C2 (amended): for every successfully evaluated candidate, the
reported top-3 is the first three entries of the probability indices
sorted descending by probability with ties broken by the HIGHER index
first (the `[-3:][::-1]` slicing of a stable ascending argsort reverses
the order of tied entries). -/
theorem c2_top3_ties_higher_index (E : ℚ → ℚ) (labels : List String) (i : Nat)
    (name : String) (raw : List ℚ) :
    (evalCandidate E labels i name raw).top3 =
      (argsortDescHigh (probsOf E raw)).take 3 ∧
    ((evalCandidate E labels i name raw).top3).Pairwise
      (fun a b => (probsOf E raw).getD b 0 < (probsOf E raw).getD a 0 ∨
        ((probsOf E raw).getD b 0 = (probsOf E raw).getD a 0 ∧ b ≤ a)) :=
  ⟨top3_eq_take_descHigh (probsOf E raw), top3_pairwise_descHigh (probsOf E raw)⟩

end PigWeigh

namespace PigWeigh

/-- Claim C5: the final ranked list contains all successfully evaluated
candidates (it is a permutation of the evaluation-loop output), it is
sorted by decisiveness score descending with ties between equal scores
broken by candidate generation order (the `idx` field records generation
order), and evaluation is deterministic: two runs over pointwise-equal
inference behaviour produce the identical ordered result list. -/
theorem c5_stable_ranking (E : ℚ → ℚ) (labels : List String)
    (infer : Nat → Option (List ℚ)) (names : List String) :
    (rankResults (evalResults E labels infer names)).Perm
      (evalResults E labels infer names) ∧
    (rankResults (evalResults E labels infer names)).Pairwise
      (fun a b => b.spread < a.spread ∨ (a.spread = b.spread ∧ a.idx ≤ b.idx)) ∧
    ∀ infer2 : Nat → Option (List ℚ), (∀ i, infer i = infer2 i) →
      rankResults (evalResults E labels infer names) =
        rankResults (evalResults E labels infer2 names) := by
  refine ⟨rank_perm _, rank_pairwise _ (evalResults_idx_pairwise E labels infer names), ?_⟩
  intro infer2 h
  rw [funext h]

/-- Witness for claim C5's determinism clause on a concrete run (one
failing candidate, one succeeding). -/
theorem c5_witness :
    (∀ i : Nat, inferW i = inferW i) ∧
    rankResults (evalResults id [] inferW ["a", "b"]) =
      rankResults (evalResults id [] inferW ["a", "b"]) :=
  ⟨fun _ => rfl, (c5_stable_ranking id [] inferW ["a", "b"]).2.2 inferW (fun _ => rfl)⟩

/-- Claim C6: the recommended best candidate is the head of the stable
descending-sorted result list: the running maximum of the evaluation
loop (which updates only on a strictly greater score and therefore keeps
the earliest among tied candidates) reports the same score, variant
name, label and confidence as the first element of the sorted list. -/
theorem c6_running_best_is_head (E : ℚ → ℚ) (labels : List String)
    (infer : Nat → Option (List ℚ)) (names : List String)
    (hne : evalResults E labels infer names ≠ []) :
    ∃ h, (rankResults (evalResults E labels infer names)).head? = some h ∧
      bestOf (evalResults E labels infer names) =
        { spread := h.spread, name := h.name, label := h.topLbl, conf := h.topConf } := by
  have hnn : ∀ r ∈ evalResults E labels infer names, 0 ≤ r.spread := by
    intro r hr
    rcases (mem_evalFrom E labels infer names 0 r).mp hr with ⟨j, hj, raw, hij, he⟩
    rw [he]
    show 0 ≤ maxL raw - meanL raw
    exact spread_nonneg raw
  obtain ⟨h, h1, h2⟩ :=
    bestOf_eq_rank_head _ (evalResults_idx_pairwise E labels infer names) hnn hne
  exact ⟨h, h1, h2⟩

/-- Witness for claim C6 on a concrete run with one failed and one
successful candidate. -/
theorem c6_witness :
    evalResults id [] inferW ["a", "b"] ≠ [] ∧
    ∃ h, (rankResults (evalResults id [] inferW ["a", "b"])).head? = some h ∧
      bestOf (evalResults id [] inferW ["a", "b"]) =
        { spread := h.spread, name := h.name, label := h.topLbl, conf := h.topConf } :=
  ⟨by decide, c6_running_best_is_head id [] inferW ["a", "b"] (by decide)⟩

/-- Claim C8: label resolution never indexes outside the LabelSet —
whenever the class index is at least the number of labels the synthetic
string `"idx_<i>"` is returned instead of indexing — and for an output
vector of length 95 the top-1 index and every top-3 index lie in
[0, 95). -/
theorem c8_label_resolution :
    (∀ (labels : List String) (i : Nat), labels.length ≤ i →
      resolveLabel labels i = "idx_" ++ toString i) ∧
    (∀ probs : List ℚ, probs.length = 95 →
      argmaxL probs < 95 ∧ ∀ j ∈ top3L probs, j < 95) := by
  constructor
  · intro labels i h
    rw [resolveLabel, if_neg (by omega)]
  · intro probs h
    constructor
    · have hne : probs ≠ [] := by
        intro he
        rw [he] at h
        simp at h
      have := argmaxL_lt probs hne
      omega
    · intro j hj
      have := mem_top3_lt probs j hj
      omega

/-- Witness for claim C8: a one-label LabelSet with an out-of-range
index, and a concrete 95-entry probability vector. -/
theorem c8_witness :
    ((["under_20kg"] : List String).length ≤ 7 ∧
      resolveLabel ["under_20kg"] 7 = "idx_" ++ toString 7) ∧
    (probs95.length = 95 ∧
      (argmaxL probs95 < 95 ∧ ∀ j ∈ top3L probs95, j < 95)) :=
  ⟨⟨by norm_num, c8_label_resolution.1 ["under_20kg"] 7 (by norm_num)⟩,
   ⟨by simp [probs95], c8_label_resolution.2 probs95 (by simp [probs95])⟩⟩

/-- Claim C9: a failing candidate is isolated — no result with its index
is ever ranked; every other candidate with successful inference still
contributes its result; and every ranked result is the fully-populated
evaluation of some successfully-inferred candidate (no
partially-populated result exists). -/
theorem c9_failure_isolation (E : ℚ → ℚ) (labels : List String)
    (infer : Nat → Option (List ℚ)) (names : List String) :
    (∀ i, infer i = none → ∀ r ∈ evalResults E labels infer names, r.idx ≠ i) ∧
    (∀ i raw, i < names.length → infer i = some raw →
      evalCandidate E labels i (names.getD i "") raw ∈ evalResults E labels infer names) ∧
    (∀ r ∈ evalResults E labels infer names,
      ∃ i raw, i < names.length ∧ infer i = some raw ∧
        r = evalCandidate E labels i (names.getD i "") raw) := by
  refine ⟨?_, ?_, ?_⟩
  · intro i hni r hr heq
    rcases (mem_evalFrom E labels infer names 0 r).mp hr with ⟨j, hj, raw, hij, he⟩
    have hidx : r.idx = 0 + j := by rw [he]; rfl
    rw [heq, Nat.zero_add] at hidx
    rw [Nat.zero_add, ← hidx, hni] at hij
    exact Option.noConfusion hij
  · intro i raw hi hir
    apply (mem_evalFrom E labels infer names 0 _).mpr
    exact ⟨i, hi, raw, by simpa using hir, by simp⟩
  · intro r hr
    rcases (mem_evalFrom E labels infer names 0 r).mp hr with ⟨j, hj, raw, hij, he⟩
    exact ⟨j, raw, hj, by simpa using hij, by simpa using he⟩

/-- Witness for claim C9 on a concrete run: candidate 0 fails (no ranked
result carries index 0) and candidate 1 succeeds with raw output
`[1, 2]` (its fully-populated result is present). -/
theorem c9_witness :
    (∀ r ∈ evalResults id [] inferW ["a", "b"], r.idx ≠ 0) ∧
    evalCandidate id [] 1 "b" [1, 2] ∈ evalResults id [] inferW ["a", "b"] :=
  ⟨(c9_failure_isolation id [] inferW ["a", "b"]).1 0 rfl,
   (c9_failure_isolation id [] inferW ["a", "b"]).2.1 1 [1, 2] (by norm_num) rfl⟩

/-- Claim C10: before inference the normalized float array is cast to
the model's input element type with an unguarded elementwise cast; for
an 8-bit unsigned type an out-of-range value wraps modulo 2^8 instead of
being clamped or rejected: the pixel value 0 normalized by ÷127.5−1
becomes −1 and casts to 255 (a clamping cast would give 0), every value
in (−256, −1] wraps to the nonzero byte 256+trunc(x), and the ImageNet
mean-std normalization of a zero red-channel pixel (≈ −2.118) casts to
254. -/
theorem c10_unguarded_cast_wraps :
    prepareU8 symUnit [0, 255] = [255, 1] ∧
    (∀ x : ℚ, -256 < x → x ≤ -1 →
      castU8 x = (256 + ratTrunc x).toNat ∧ clampU8 x = 0 ∧ castU8 x ≠ 0) ∧
    imagenetNormR 0 < 0 ∧ castU8 (imagenetNormR 0) = 254 ∧ clampU8 (imagenetNormR 0) = 0 := by
  have htrunc : ratTrunc (imagenetNormR 0) = -2 := by
    rw [ratTrunc, if_neg (by norm_num [imagenetNormR])]
    rw [imagenetNormR, Int.ceil_eq_iff]
    norm_num
  have hwrap : ∀ x : ℚ, -256 < x → x ≤ -1 →
      castU8 x = (256 + ratTrunc x).toNat ∧ clampU8 x = 0 ∧ castU8 x ≠ 0 := by
    intro x h1 h2
    have hneg : ¬ 0 ≤ x := by linarith
    have ht : ratTrunc x = ⌈x⌉ := by rw [ratTrunc, if_neg hneg]
    have hub : ⌈x⌉ ≤ -1 := by
      have hx : x ≤ ((-1 : Int) : ℚ) := by exact_mod_cast h2
      exact Int.ceil_le.mpr hx
    have hlb : (-256 : Int) < ⌈x⌉ := by
      have hx : ((-256 : Int) : ℚ) < (⌈x⌉ : ℚ) :=
        lt_of_lt_of_le (by exact_mod_cast h1) (Int.le_ceil x)
      exact_mod_cast hx
    refine ⟨?_, ?_, ?_⟩
    · rw [castU8, ht]
      omega
    · rw [clampU8, ht]
      omega
    · rw [castU8, ht]
      omega
  refine ⟨?_, hwrap, by norm_num [imagenetNormR], ?_, ?_⟩
  · have h0 : symUnit 0 = -1 := by norm_num [symUnit]
    have h255 : symUnit 255 = 1 := by norm_num [symUnit]
    have hc0 : castU8 (-1) = 255 := by
      have ht : ratTrunc (-1 : ℚ) = -1 := by
        rw [ratTrunc, if_neg (by norm_num)]
        rw [Int.ceil_eq_iff]
        norm_num
      rw [castU8, ht]
      decide
    have hc1 : castU8 1 = 1 := by
      have ht : ratTrunc (1 : ℚ) = 1 := by
        rw [ratTrunc, if_pos (by norm_num)]
        rw [Int.floor_eq_iff]
        norm_num
      rw [castU8, ht]
      decide
    show [castU8 (symUnit 0), castU8 (symUnit 255)] = [255, 1]
    rw [h0, h255, hc0, hc1]
  · rw [castU8, htrunc]
    decide
  · rw [clampU8, htrunc]
    decide

/-- Witness for claim C10's universally quantified wrap clause at the
concrete normalized value −3/2. -/
theorem c10_witness :
    (-256 : ℚ) < -3/2 ∧ (-3/2 : ℚ) ≤ -1 ∧
    (castU8 (-3/2) = (256 + ratTrunc (-3/2)).toNat ∧ clampU8 (-3/2) = 0 ∧
      castU8 (-3/2) ≠ 0) :=
  ⟨by norm_num, by norm_num,
   c10_unguarded_cast_wraps.2.1 (-3/2) (by norm_num) (by norm_num)⟩

end PigWeigh
